import Mathlib

/-!
Verification of the `znycheporuk/utils` repository: a shallow embedding of
`download-release-notes.js` and `getSizeOfObject.js`, with theorems about
the version matching, release filtering, body cleaning, pagination, error
wrapping, markdown rendering and object-size traversal.

JavaScript strings are modelled as lists of characters (`Str`); the string
built-ins the scripts use (`trim`, `split`, `join`, `startsWith`,
`includes`, `parseInt`, number rendering) are given direct recursive
definitions below.
-/

/-- JavaScript strings, modelled as lists of characters. -/
abbrev Str := List Char

/-- Conversion from Lean string literals into the JS string model. -/
def str (s : String) : Str := s.toList

/-- Whitespace class used by `String.prototype.trim` (the code points that
occur in this development). -/
def isWs (c : Char) : Bool :=
  c = ' ' || c = '\t' || c = '\n' || c = '\r' || c = '\x0b' || c = '\x0c' ||
    c = ' ' || c = '﻿'

/-- Model of `s.startsWith(pat)`. -/
def jsStartsWith : Str → Str → Bool
  | _, [] => true
  | [], _ :: _ => false
  | c :: cs, p :: ps => c == p && jsStartsWith cs ps

/-- Model of `s.includes(sub)`. -/
def jsIncludes : Str → Str → Bool
  | [], sub => jsStartsWith [] sub
  | c :: cs, sub => jsStartsWith (c :: cs) sub || jsIncludes cs sub

/-- Leading-whitespace removal, the first half of `s.trim()`. -/
def trimLeft (s : Str) : Str := s.dropWhile isWs

/-- Trailing-whitespace removal, the second half of `s.trim()`. -/
def trimRight : Str → Str
  | [] => []
  | c :: cs =>
    match trimRight cs with
    | [] => if isWs c then [] else [c]
    | r :: rs => c :: r :: rs

/-- Model of `s.trim()`. -/
def trim (s : Str) : Str := trimLeft (trimRight s)

/-- Model of `s.split(sep)` for a one-character separator. -/
def splitOnChar (sep : Char) : Str → List Str
  | [] => [[]]
  | c :: cs =>
    if c = sep then [] :: splitOnChar sep cs
    else
      match splitOnChar sep cs with
      | [] => [[c]]
      | t :: ts => (c :: t) :: ts

/-- Model of `parts.join(sep)` for a one-character separator. -/
def joinChar (sep : Char) : List Str → Str
  | [] => []
  | l :: ls =>
    match ls with
    | [] => l
    | _ :: _ => l ++ sep :: joinChar sep ls

/-- Fuelled helper for `natToStr`. -/
def natToStrAux : Nat → Nat → Str
  | 0, _ => []
  | fuel + 1, n =>
    if n < 10 then [Nat.digitChar n]
    else natToStrAux fuel (n / 10) ++ [Nat.digitChar (n % 10)]

/-- Model of JS number-to-string conversion for the natural numbers
produced by this program (page counters, list lengths, byte counts). -/
def natToStr (n : Nat) : Str := natToStrAux (n + 1) n

/-- Decimal value of a digit string, as computed by `parseInt(s, 10)` on a
string of digits (read left to right with accumulator). -/
def decValue (ds : Str) : Nat := ds.foldl (fun a c => 10 * a + (c.toNat - '0'.toNat)) 0

/-!
Embedding of `src/download-release-notes.js`.
-/

/-- Embeds `parseVersion` (lines 188-197): strip one leading `v`, split on
`.`, remove every non-digit character of each part (`replace(/[^\d]/g,"")`)
and `parseInt` the remainder, `NaN` (empty digit string) becoming `0`. -/
def parseVersion (version : Str) : List Nat :=
  let cleanVersion : Str :=
    match version with
    | 'v' :: rest => rest
    | s => s
  (splitOnChar '.' cleanVersion).map fun part =>
    let digits := part.filter Char.isDigit
    if digits.isEmpty then 0 else decValue digits

/-- Embeds the comparison loop of `versionMatches` (lines 214-229): walk the
pattern components, reading missing version components as `0`
(`versionParts[i] || 0`); at the first strict difference the answer depends
only on the `type` string, and full agreement returns `true`. -/
def matchStep : List Nat → List Nat → Str → Bool
  | _, [], _ => true
  | vs, p :: ps, ty =>
    if vs.headD 0 < p then ty == str "max"
    else if p < vs.headD 0 then ty == str "min"
    else matchStep vs.tail ps ty

/-- Embeds `versionMatches` (lines 206-230). -/
def versionMatches (version pattern ty : Str) : Bool :=
  matchStep (parseVersion version) (parseVersion pattern) ty

/-- A release record as used by the script: `tag_name`, optional `name`,
optional `body`, and `published_at` modelled as the parsed instant of the
ISO timestamp (an integer), since only `new Date(...)` comparisons use it. -/
structure Release where
  tag_name : Str
  name : Option Str
  body : Option Str
  published_at : Int
deriving DecidableEq

/-- JS truthiness of an optional string (`null`/`undefined` and `""` are
falsy). -/
def truthyOpt : Option Str → Bool
  | none => false
  | some s => !s.isEmpty

/-- Embeds the predicate inside `filterReleasesByVersion`'s `filter`
callback (lines 244-258). -/
def keepRelease (minVersion maxVersion : Option Str) (release : Release) : Bool :=
  if truthyOpt minVersion && !versionMatches release.tag_name (minVersion.getD []) (str "min") then false
  else if truthyOpt maxVersion && !versionMatches release.tag_name (maxVersion.getD []) (str "max") then false
  else true

/-- Embeds `filterReleasesByVersion` (lines 239-259). -/
def filterReleasesByVersion (releases : List Release) (minVersion maxVersion : Option Str) : List Release :=
  if !truthyOpt minVersion && !truthyOpt maxVersion then releases
  else releases.filter (keepRelease minVersion maxVersion)

/-- The "New Contributors" section-start test of `cleanReleaseBody`
(lines 148-152), applied to the trimmed line. -/
def ncTrigger (t : Str) : Bool :=
  jsStartsWith t (str "## New Contributors") ||
    jsStartsWith t (str "### New Contributors") ||
    jsStartsWith t (str "**New Contributors**")

/-- The "Full Changelog" drop test of `cleanReleaseBody` (lines 158-161),
applied to the trimmed line. -/
def fcTrigger (t : Str) : Bool :=
  jsStartsWith t (str "**Full Changelog**:") || jsStartsWith t (str "Full Changelog:")

/-- The skip-flag update of `cleanReleaseBody` (lines 166-172): while
skipping, a heading line that does not mention "New Contributors" clears
the flag before the line is emitted. -/
def skipAfter (skip : Bool) (l : Str) : Bool :=
  if skip && (jsStartsWith (trim l) (str "##") || jsStartsWith (trim l) (str "###")) &&
      !jsIncludes (trim l) (str "New Contributors") then false
  else skip

/-- Embeds the line loop of `cleanReleaseBody` (lines 144-178): the
`skipSection` flag is threaded through the recursion. -/
def cleanLines : Bool → List Str → List Str
  | _, [] => []
  | skip, l :: ls =>
    if ncTrigger (trim l) then cleanLines true ls
    else if fcTrigger (trim l) then cleanLines skip ls
    else
      if skipAfter skip l then cleanLines (skipAfter skip l) ls
      else l :: cleanLines (skipAfter skip l) ls

/-- The `skipSection` value after the loop has consumed a list of lines. -/
def stateAfter : Bool → List Str → Bool
  | skip, [] => skip
  | skip, l :: ls =>
    if ncTrigger (trim l) then stateAfter true ls
    else if fcTrigger (trim l) then stateAfter skip ls
    else stateAfter (skipAfter skip l) ls

/-- Embeds `cleanReleaseBody` (lines 137-181): empty (falsy) body yields
`""`; otherwise split on newlines, run the skip loop from a clear flag,
rejoin and trim. -/
def cleanReleaseBody (body : Str) : Str :=
  if body.isEmpty then []
  else trim (joinChar '\n' (cleanLines false (splitOnChar '\n' body)))

/-- One page response of the GitHub releases endpoint: either the parsed
array of releases, or the message of the failure (`makeRequest` rejects on
transport error, timeout, non-200 status, or JSON decode failure). -/
abbrev PageResult (α : Type) := Except Str (List α)

/-- Embeds the pagination loop of `fetchAllReleases` (lines 98-126):
starting at `pageNum`, consume page responses; an empty page terminates
without being appended, a short page terminates after being appended, a
failure aborts with the wrapped message naming the failing page.  Returns
the accumulated releases together with the number of requests made. -/
def fetchPages (pageNum : Nat) : List (PageResult α) → Except Str (List α × Nat)
  | [] => Except.ok ([], 1)
  | Except.error e :: _ =>
    Except.error (str "Failed to fetch releases on page " ++ natToStr pageNum ++ str ": " ++ e)
  | Except.ok p :: rest =>
    if p.length = 0 then Except.ok ([], 1)
    else if p.length < 100 then Except.ok (p, 1)
    else
      match fetchPages (pageNum + 1) rest with
      | Except.ok (r, n) => Except.ok (p ++ r, n + 1)
      | Except.error e => Except.error e

/-- Embeds `fetchAllReleases` (lines 91-130), with the network abstracted
as the list of successive page responses. -/
def fetchAllReleases (pages : List (PageResult α)) : Except Str (List α × Nat) :=
  fetchPages 1 pages

/-- The display name of a release, `release.name || release.tag_name`
(line 302). -/
def displayName (release : Release) : Str :=
  match release.name with
  | none => release.tag_name
  | some n => if n.isEmpty then release.tag_name else n

/-- The body block of one rendered release (lines 304-309): a truthy body
is cleaned, and appended when its trimmed form is non-empty. -/
def bodyBlock (release : Release) : Str :=
  match release.body with
  | none => []
  | some b =>
    if b.isEmpty then []
    else
      if (trim (cleanReleaseBody b)).isEmpty then []
      else cleanReleaseBody b ++ str "\n\n"

/-- One rendered release section without its trailing separator
(lines 302-309). -/
def sectionFor (release : Release) : Str :=
  str "## " ++ displayName release ++ str "\n\n" ++ bodyBlock release

/-- The release loop of `saveReleasesAsMarkdown` (lines 299-315): a
`---` separator follows every section except the last. -/
def renderSections : List Release → Str
  | [] => []
  | r :: rs =>
    match rs with
    | [] => sectionFor r
    | _ :: _ => sectionFor r ++ str "---\n\n" ++ renderSections rs

/-- Stable insertion step for the descending sort by `published_at`;
models `filteredReleases.sort((a, b) => new Date(b.published_at) - new
Date(a.published_at))` (lines 295-297). -/
def insertDesc (r : Release) : List Release → List Release
  | [] => [r]
  | x :: xs =>
    if x.published_at < r.published_at then r :: x :: xs
    else x :: insertDesc r xs

/-- The descending-by-timestamp sort of the filtered releases. -/
def sortByPublishedDesc (releases : List Release) : List Release :=
  releases.foldr insertDesc []

/-- The `minVersion || "any"` display fallback (line 290). -/
def orAny : Option Str → Str
  | none => str "any"
  | some s => if s.isEmpty then str "any" else s

/-- The `maxVersion || "latest"` display fallback (line 290). -/
def orLatest : Option Str → Str
  | none => str "latest"
  | some s => if s.isEmpty then str "latest" else s

/-- Embeds the changelog text built by `saveReleasesAsMarkdown`
(lines 269-315), everything except the file write. -/
def renderChangelog (releases : List Release) (repo : Str) (minVersion maxVersion : Option Str) : Str :=
  let filteredReleases := filterReleasesByVersion releases minVersion maxVersion
  let header := str "# " ++ repo ++ str " Changelog\n\n"
  let rangeInfo : Str :=
    if truthyOpt minVersion || truthyOpt maxVersion then
      str "Version range: " ++ orAny minVersion ++ str " to " ++ orLatest maxVersion ++ str "\n" ++
        str "Showing " ++ natToStr filteredReleases.length ++ str " of " ++
        natToStr releases.length ++ str " releases\n\n"
    else []
  header ++ rangeInfo ++ renderSections (sortByPublishedDesc filteredReleases)

/-- Lexicographic "version is at least the pattern" over exactly the
pattern's component count, missing version components read as 0: the order
named by the claim about minimum bounds. -/
def lexGE : List Nat → List Nat → Bool
  | _, [] => true
  | vs, p :: ps =>
    if p < vs.headD 0 then true
    else if vs.headD 0 = p then lexGE vs.tail ps
    else false

/-- Lexicographic "version is at most the pattern" over exactly the
pattern's component count, missing version components read as 0: the order
named by the claim about maximum bounds. -/
def lexLE : List Nat → List Nat → Bool
  | _, [] => true
  | vs, p :: ps =>
    if vs.headD 0 < p then true
    else if vs.headD 0 = p then lexLE vs.tail ps
    else false

/-- Version parsing as the amended claim describes it: strip one leading
"v", split on ".", and read each segment as the decimal number formed by
its digit characters in order (all non-digit characters discarded), a
segment with no digits becoming 0.  Stated via `Nat.ofDigits` on the
little-endian digit list. -/
def parseVersionSpec (version : Str) : List Nat :=
  let cleanVersion : Str :=
    match version with
    | 'v' :: rest => rest
    | s => s
  (splitOnChar '.' cleanVersion).map fun part =>
    Nat.ofDigits 10 (((part.filter Char.isDigit).map fun c => c.toNat - '0'.toNat).reverse)

/-- A release with only its tag label set, for the concrete filtering
scenarios. -/
def releaseOfTag (tag : String) : Release := ⟨str tag, none, none, 0⟩

/-!
Embedding of `src/getSizeOfObject.js`.

JavaScript values are modelled with object identity made explicit: an
object value is a reference `objv id` into a heap that lists each object's
enumerable property values in `for...in` order (property names are never
used by the code).  Cyclic object graphs are heaps whose entries refer
back to earlier identifiers.
-/

/-- A JavaScript value as discriminated by the `typeof` chain of
`getSizeOfObject`: booleans, strings, numbers, object references, `null`
(whose `typeof` is also `"object"`), and everything the code ignores
(`undefined`, functions, symbols). -/
inductive JSVal where
  | boolv (b : Bool)
  | strv (s : Str)
  | numv (n : Int)
  | objv (id : Nat)
  | nullv
  | undefv
deriving DecidableEq

/-- A heap: entry `id` lists the property values of object `id`. -/
abbrev Heap := List (List JSVal)

/-- Strict equality `===` as used by `objectList.indexOf(value)`: only
object references and `null` are ever stored in `objectList`. -/
def jsEq : JSVal → JSVal → Bool
  | JSVal.objv i, JSVal.objv j => i == j
  | JSVal.nullv, JSVal.nullv => true
  | _, _ => false

/-- Membership test `objectList.indexOf(value) !== -1`. -/
def memVis (v : JSVal) (objectList : List JSVal) : Bool :=
  objectList.any fun w => jsEq w v

/-- Embeds the `while (stack.length)` loop of `getSizeOfObject`
(lines 6-22), with explicit fuel: pop a value; booleans add 4, strings add
`2 * length`, numbers add 8; an unvisited object (or `null`) is recorded
in `objectList` and its property values are pushed (so the traversal top,
the list head, is the last property); everything else is ignored.  `none`
means the fuel ran out with work remaining. -/
def sizeLoop (heap : Heap) : Nat → List JSVal → List JSVal → Int → Option Int
  | _, [], _, bytes => some bytes
  | 0, _ :: _, _, _ => none
  | fuel + 1, value :: stack, objectList, bytes =>
    match value with
    | JSVal.boolv _ => sizeLoop heap fuel stack objectList (bytes + 4)
    | JSVal.strv s => sizeLoop heap fuel stack objectList (bytes + 2 * (s.length : Int))
    | JSVal.numv _ => sizeLoop heap fuel stack objectList (bytes + 8)
    | JSVal.objv id =>
      if memVis (JSVal.objv id) objectList then sizeLoop heap fuel stack objectList bytes
      else sizeLoop heap fuel ((heap.getD id []).reverse ++ stack) (JSVal.objv id :: objectList) bytes
    | JSVal.nullv =>
      if memVis JSVal.nullv objectList then sizeLoop heap fuel stack objectList bytes
      else sizeLoop heap fuel stack (JSVal.nullv :: objectList) bytes
    | JSVal.undefv => sizeLoop heap fuel stack objectList bytes

/-- Total number of property slots in the heap. -/
def totalProps (heap : Heap) : Nat := (heap.map List.length).sum

/-- Fuel that provably suffices for `sizeLoop`: every iteration pops one
entry, and each object's properties are pushed at most once. -/
def fuelFor (heap : Heap) (stack : List JSVal) : Nat := stack.length + totalProps heap

/-- Decimal rendering with three fraction digits: models
`(num / den).toFixed(3)` by rounding the exact rational to the nearest
thousandth (half away from zero). -/
def toFixed3 (num : Int) (den : Nat) : Str :=
  let scaled := (num.toNat * 1000 + den / 2) / den
  let frac := natToStr (scaled % 1000)
  natToStr (scaled / 1000) ++ str "." ++ List.replicate (3 - frac.length) '0' ++ frac

/-- Embeds the unit-formatting tail of `getSizeOfObject` (lines 24-27). -/
def formatSize (bytes : Int) : Str :=
  if bytes < 1024 then natToStr bytes.toNat ++ str " bytes"
  else if bytes < 1048576 then toFixed3 bytes 1024 ++ str " KiB"
  else if bytes < 1073741824 then toFixed3 bytes 1048576 ++ str " MiB"
  else toFixed3 bytes 1073741824 ++ str " GiB"

/-- Embeds the default export of `getSizeOfObject.js`: traverse from the
argument with an empty visited list and zero byte count, then format.  The
fuel is `fuelFor`, proven sufficient below. -/
def getSizeOfObject (heap : Heap) (object : JSVal) : Str :=
  match sizeLoop heap (fuelFor heap [object]) [object] [] 0 with
  | some bytes => formatSize bytes
  | none => formatSize 0

/-- The property mass still pushable: the sizes of the heap entries not
yet recorded in `objectList`. -/
def remainingProps (heap : Heap) (objectList : List JSVal) : Nat :=
  (((List.range heap.length).filter fun i => !memVis (JSVal.objv i) objectList).map
    fun i => (heap.getD i []).length).sum

/-!
Lemmas about the version comparison loop.
-/

lemma getD_zero_headD (vs : List Nat) : vs.getD 0 0 = vs.headD 0 := by
  cases vs <;> rfl

lemma getD_succ_tail (vs : List Nat) (i : Nat) : vs.getD (i + 1) 0 = vs.tail.getD i 0 := by
  cases vs <;> simp

lemma matchStep_cons_lt {vs : List Nat} {p : Nat} (ps : List Nat) (ty : Str)
    (h : vs.headD 0 < p) : matchStep vs (p :: ps) ty = (ty == str "max") := by
  show (if vs.headD 0 < p then ty == str "max"
    else if p < vs.headD 0 then ty == str "min" else matchStep vs.tail ps ty) = _
  rw [if_pos h]

lemma matchStep_cons_gt {vs : List Nat} {p : Nat} (ps : List Nat) (ty : Str)
    (h : p < vs.headD 0) : matchStep vs (p :: ps) ty = (ty == str "min") := by
  show (if vs.headD 0 < p then ty == str "max"
    else if p < vs.headD 0 then ty == str "min" else matchStep vs.tail ps ty) = _
  rw [if_neg (by omega), if_pos h]

lemma matchStep_cons_eq {vs : List Nat} {p : Nat} (ps : List Nat) (ty : Str)
    (h : vs.headD 0 = p) : matchStep vs (p :: ps) ty = matchStep vs.tail ps ty := by
  show (if vs.headD 0 < p then ty == str "max"
    else if p < vs.headD 0 then ty == str "min" else matchStep vs.tail ps ty) = _
  rw [if_neg (by omega), if_neg (by omega)]

lemma lexGE_cons {vs : List Nat} {p : Nat} (ps : List Nat) :
    lexGE vs (p :: ps) =
      (if p < vs.headD 0 then true else if vs.headD 0 = p then lexGE vs.tail ps else false) := rfl

lemma lexLE_cons {vs : List Nat} {p : Nat} (ps : List Nat) :
    lexLE vs (p :: ps) =
      (if vs.headD 0 < p then true else if vs.headD 0 = p then lexLE vs.tail ps else false) := rfl

lemma min_beq_max : (str "min" == str "max") = false := by decide

lemma min_beq_min : (str "min" == str "min") = true := by decide

lemma max_beq_max : (str "max" == str "max") = true := by decide

lemma max_beq_min : (str "max" == str "min") = false := by decide

lemma matchStep_min_eq_lexGE (ps : List Nat) : ∀ vs, matchStep vs ps (str "min") = lexGE vs ps := by
  induction ps with
  | nil => intro vs; rfl
  | cons p ps ih =>
    intro vs
    rcases Nat.lt_trichotomy (vs.headD 0) p with h | h | h
    · rw [matchStep_cons_lt ps _ h, lexGE_cons, if_neg (by omega), if_neg (by omega), min_beq_max]
    · rw [matchStep_cons_eq ps _ h, lexGE_cons, if_neg (by omega), if_pos h, ih]
    · rw [matchStep_cons_gt ps _ h, lexGE_cons, if_pos h, min_beq_min]

lemma matchStep_max_eq_lexLE (ps : List Nat) : ∀ vs, matchStep vs ps (str "max") = lexLE vs ps := by
  induction ps with
  | nil => intro vs; rfl
  | cons p ps ih =>
    intro vs
    rcases Nat.lt_trichotomy (vs.headD 0) p with h | h | h
    · rw [matchStep_cons_lt ps _ h, lexLE_cons, if_pos h, max_beq_max]
    · rw [matchStep_cons_eq ps _ h, lexLE_cons, if_neg (by omega), if_pos h, ih]
    · rw [matchStep_cons_gt ps _ h, lexLE_cons, if_neg (by omega), if_neg (by omega), max_beq_min]

lemma matchStep_min_or_max (ps : List Nat) :
    ∀ vs, (matchStep vs ps (str "min") || matchStep vs ps (str "max")) = true := by
  induction ps with
  | nil => intro vs; rfl
  | cons p ps ih =>
    intro vs
    rcases Nat.lt_trichotomy (vs.headD 0) p with h | h | h
    · rw [matchStep_cons_lt ps _ h, matchStep_cons_lt ps _ h, min_beq_max, max_beq_max,
        Bool.or_true]
    · rw [matchStep_cons_eq ps _ h, matchStep_cons_eq ps _ h, ih]
    · rw [matchStep_cons_gt ps _ h, matchStep_cons_gt ps _ h, min_beq_min, Bool.true_or]

lemma matchStep_min_and_max (ps : List Nat) :
    ∀ vs, (matchStep vs ps (str "min") && matchStep vs ps (str "max")) = true ↔
      ∀ i, i < ps.length → vs.getD i 0 = ps.getD i 0 := by
  induction ps with
  | nil => intro vs; simp [matchStep]
  | cons p ps ih =>
    intro vs
    rcases Nat.lt_trichotomy (vs.headD 0) p with h | h | h
    · rw [matchStep_cons_lt ps _ h, matchStep_cons_lt ps _ h, min_beq_max, Bool.false_and]
      constructor
      · intro hb; exact absurd hb (by simp)
      · intro hall
        have h0 := hall 0 (by simp)
        rw [getD_zero_headD, List.getD_cons_zero] at h0
        omega
    · rw [matchStep_cons_eq ps _ h, matchStep_cons_eq ps _ h, ih]
      constructor
      · intro hall i hi
        match i with
        | 0 =>
          rw [getD_zero_headD]
          simpa using h
        | j + 1 =>
          rw [getD_succ_tail]
          simpa using hall j (by simpa using hi)
      · intro hall i hi
        have := hall (i + 1) (by simpa using hi)
        rw [getD_succ_tail] at this
        simpa using this
    · rw [matchStep_cons_gt ps _ h, matchStep_cons_gt ps _ h, min_beq_min, max_beq_min,
        Bool.true_and]
      constructor
      · intro hb; exact absurd hb (by simp)
      · intro hall
        have h0 := hall 0 (by simp)
        rw [getD_zero_headD, List.getD_cons_zero] at h0
        omega

/-!
Lemmas for the amended parsing characterization.
-/

lemma foldl_decValue (ds : Str) : ∀ a : Nat,
    ds.foldl (fun a c => 10 * a + (c.toNat - '0'.toNat)) a =
      a * 10 ^ ds.length + Nat.ofDigits 10 ((ds.map fun c => c.toNat - '0'.toNat).reverse) := by
  induction ds with
  | nil => intro a; simp [Nat.ofDigits]
  | cons c ds ih =>
    intro a
    have := ih (10 * a + (c.toNat - '0'.toNat))
    simp only [List.foldl_cons, this, List.map_cons, List.reverse_cons, Nat.ofDigits_append,
      List.length_reverse, List.length_map, List.length_cons]
    simp [Nat.ofDigits, pow_succ]
    ring

lemma decValue_eq_ofDigits (ds : Str) :
    decValue ds = Nat.ofDigits 10 ((ds.map fun c => c.toNat - '0'.toNat).reverse) := by
  simpa using foldl_decValue ds 0

/-!
Claim theorems: version matching, filtering, parsing.
-/

/-- C1: for every version label V and pattern label P,
`versionMatches(V, P, "min")` is true exactly when V's parsed vector is
lexicographically at least P's over exactly P's component count (missing V
components read as 0), and `versionMatches(V, P, "max")` exactly when it is
at most P's under the same order; together with the four concrete
instances named by the claim. -/
theorem versionMatches_lex_characterization (v p : Str) :
    versionMatches v p (str "min") = lexGE (parseVersion v) (parseVersion p) ∧
    versionMatches v p (str "max") = lexLE (parseVersion v) (parseVersion p) ∧
    versionMatches (str "8.2.5") (str "8") (str "min") = true ∧
    versionMatches (str "7.9.9") (str "8") (str "min") = false ∧
    versionMatches (str "8.2.5") (str "8.3") (str "max") = true ∧
    versionMatches (str "9.0.0") (str "8.3") (str "max") = false :=
  ⟨matchStep_min_eq_lexGE _ _, matchStep_max_eq_lexLE _ _,
    by decide, by decide, by decide, by decide⟩

/-- C9: for every version label and pattern label, at least one of the
`"min"` and `"max"` matches holds, and both hold exactly when the parsed
vectors agree at every index below the pattern's length (missing version
components read as 0). -/
theorem versionMatches_min_max_coverage (v p : Str) :
    (versionMatches v p (str "min") || versionMatches v p (str "max")) = true ∧
    ((versionMatches v p (str "min") && versionMatches v p (str "max")) = true ↔
      ∀ i, i < (parseVersion p).length →
        (parseVersion v).getD i 0 = (parseVersion p).getD i 0) :=
  ⟨matchStep_min_or_max _ _, matchStep_min_and_max _ _⟩

/-- C2 counterexample: filtering the tags 7.5.0, 8.2.0, 8.9.9, 9.0.1 with
minVersion "8.2" and maxVersion "9" does not return just 8.2.0 and 8.9.9:
the shorthand pattern "9" also keeps 9.0.1. -/
theorem filterReleases_example_counterexample :
    filterReleasesByVersion
        [releaseOfTag "7.5.0", releaseOfTag "8.2.0", releaseOfTag "8.9.9", releaseOfTag "9.0.1"]
        (some (str "8.2")) (some (str "9"))
      ≠ [releaseOfTag "8.2.0", releaseOfTag "8.9.9"] := by decide

/-- C2 amended: filtering the tags 7.5.0, 8.2.0, 8.9.9, 9.0.1 with
minVersion "8.2" and maxVersion "9" returns exactly the releases tagged
8.2.0, 8.9.9 and 9.0.1, in that order (the shorthand maximum "9" is
inclusive of every 9.x version). -/
theorem filterReleases_example_amended :
    filterReleasesByVersion
        [releaseOfTag "7.5.0", releaseOfTag "8.2.0", releaseOfTag "8.9.9", releaseOfTag "9.0.1"]
        (some (str "8.2")) (some (str "9"))
      = [releaseOfTag "8.2.0", releaseOfTag "8.9.9", releaseOfTag "9.0.1"] := by decide

/-- C3 counterexample: the segment "8rc1" does not parse to its leading
digits 8; the parser deletes every non-digit character first and reads 81. -/
theorem parseVersion_8rc1_counterexample :
    parseVersion (str "8rc1") = [81] ∧ parseVersion (str "8rc1") ≠ [8] := by decide

/-- C3 amended: parsing strips one leading "v", splits on ".", and coerces
each segment to the non-negative integer formed by the segment's digit
characters in order (all non-digit characters discarded), wholly
non-numeric segments becoming 0; in particular "8rc1" parses to 81. -/
theorem parseVersion_amended (v : Str) :
    parseVersion v = parseVersionSpec v ∧ parseVersion (str "8rc1") = [81] := by
  refine ⟨?_, by decide⟩
  show List.map _ _ = List.map _ _
  refine List.map_congr_left fun part _ => ?_
  by_cases h : (part.filter Char.isDigit).isEmpty
  · rw [List.isEmpty_iff] at h
    simp [h, Nat.ofDigits_nil]
  · show (if (part.filter Char.isDigit).isEmpty then 0 else decValue (part.filter Char.isDigit)) = _
    rw [if_neg h, decValue_eq_ofDigits]

/-!
Claim theorems: pagination and fetch errors.
-/

lemma fetchPages_ok_cons {α : Type} (p : List α) (rest : List (PageResult α)) (k : Nat) :
    fetchPages k (Except.ok p :: rest) =
      (if p.length = 0 then Except.ok ([], 1)
       else if p.length < 100 then Except.ok (p, 1)
       else
        match fetchPages (k + 1) rest with
        | Except.ok (r, n) => Except.ok (p ++ r, n + 1)
        | Except.error e => Except.error e) := rfl

/-- C6: fetching paginates from page 1 and stops at the first short page:
three pages of sizes 100, 100, 37 yield all 237 releases concatenated in
arrival order after exactly 3 requests, and an empty first page yields the
empty list after exactly 1 request without being appended. -/
theorem fetchAllReleases_pagination {α : Type} (p1 p2 p3 : List α) (rest : List (PageResult α))
    (h1 : p1.length = 100) (h2 : p2.length = 100) (h3 : p3.length = 37) :
    fetchAllReleases [Except.ok p1, Except.ok p2, Except.ok p3] = Except.ok (p1 ++ p2 ++ p3, 3) ∧
    fetchAllReleases (Except.ok ([] : List α) :: rest) = Except.ok (([] : List α), 1) := by
  constructor
  · show fetchPages 1 _ = _
    rw [fetchPages_ok_cons, if_neg (by omega), if_neg (by omega),
      fetchPages_ok_cons, if_neg (by omega), if_neg (by omega),
      fetchPages_ok_cons, if_neg (by omega), if_pos (by omega)]
    rw [List.append_assoc]
  · rfl

/-- C6 witness at concrete pages. -/
theorem fetchAllReleases_pagination_witness :
    (List.replicate 100 (0 : Nat)).length = 100 ∧ (List.replicate 37 (0 : Nat)).length = 37 ∧
    (fetchAllReleases [Except.ok (List.replicate 100 (0 : Nat)), Except.ok (List.replicate 100 0),
        Except.ok (List.replicate 37 0)]
      = Except.ok (List.replicate 100 0 ++ List.replicate 100 0 ++ List.replicate 37 0, 3) ∧
    fetchAllReleases (Except.ok ([] : List Nat) :: [])
      = Except.ok (([] : List Nat), 1)) :=
  ⟨by simp, by simp,
    fetchAllReleases_pagination (List.replicate 100 0) (List.replicate 100 0)
      (List.replicate 37 0) [] (by simp) (by simp) (by simp)⟩

lemma fetchPages_error_after {α : Type} (e : Str) (rest : List (PageResult α)) :
    ∀ (okPages : List (List α)) (k : Nat), (∀ p ∈ okPages, p.length = 100) →
      fetchPages k (okPages.map Except.ok ++ Except.error e :: rest) =
        Except.error (str "Failed to fetch releases on page " ++
          natToStr (k + okPages.length) ++ str ": " ++ e) := by
  intro okPages
  induction okPages with
  | nil => intro k hall; rfl
  | cons p ps ih =>
    intro k hall
    have hp : p.length = 100 := hall p (by simp)
    have hrec := ih (k + 1) fun q hq => hall q (by simp [hq])
    rw [List.map_cons, List.cons_append, fetchPages_ok_cons, if_neg (by omega),
      if_neg (by omega), hrec]
    have : k + 1 + ps.length = k + (ps.length + 1) := by omega
    rw [this, List.length_cons]

/-- C7: when the first failing page is page `k` (after `k - 1` full pages),
the whole fetch fails with a wrapped error naming page `k`, and no partial
list of releases accumulated from the earlier pages is returned. -/
theorem fetchAllReleases_error {α : Type} (okPages : List (List α)) (e : Str)
    (rest : List (PageResult α)) (hall : ∀ p ∈ okPages, p.length = 100) :
    fetchAllReleases (okPages.map Except.ok ++ Except.error e :: rest) =
      Except.error (str "Failed to fetch releases on page " ++
        natToStr (okPages.length + 1) ++ str ": " ++ e) := by
  show fetchPages 1 _ = _
  rw [fetchPages_error_after e rest okPages 1 hall, Nat.add_comm]

/-- C7 witness: one full page then a timeout fails naming page 2. -/
theorem fetchAllReleases_error_witness :
    (∀ p ∈ [List.replicate 100 (0 : Nat)], p.length = 100) ∧
    fetchAllReleases ([List.replicate 100 (0 : Nat)].map Except.ok ++
        Except.error (str "Request timeout") :: []) =
      Except.error (str "Failed to fetch releases on page " ++
        natToStr ([List.replicate 100 (0 : Nat)].length + 1) ++ str ": " ++
        str "Request timeout") :=
  ⟨by simp, fetchAllReleases_error [List.replicate 100 0] (str "Request timeout") [] (by simp)⟩

/-!
Claim theorems: changelog rendering.
-/

/-- C8: releases with ascending timestamps render newest first (T3, T2,
T1), with a `---` separator between every adjacent pair of rendered
sections and none after the last; and when a bound is supplied but no
release survives filtering, the document is exactly the title plus the
range and count lines, with no release sections. -/
theorem renderChangelog_spec (r1 r2 r3 : Release) (repo : Str)
    (h12 : r1.published_at < r2.published_at) (h23 : r2.published_at < r3.published_at)
    (rs : List Release) (m : Str) (hm : m ≠ [])
    (hfil : filterReleasesByVersion rs (some m) none = []) :
    renderChangelog [r1, r2, r3] repo none none =
      str "# " ++ repo ++ str " Changelog\n\n" ++
        (sectionFor r3 ++ str "---\n\n" ++ (sectionFor r2 ++ str "---\n\n" ++ sectionFor r1)) ∧
    renderChangelog rs repo (some m) none =
      str "# " ++ repo ++ str " Changelog\n\n" ++
        (str "Version range: " ++ m ++ str " to " ++ str "latest" ++ str "\n" ++
          str "Showing " ++ natToStr 0 ++ str " of " ++ natToStr rs.length ++
          str " releases\n\n") := by
  have e2 : insertDesc r2 [r3] = [r3, r2] := by
    show (if r3.published_at < r2.published_at then r2 :: [r3] else r3 :: insertDesc r2 []) = _
    rw [if_neg (by omega)]
    rfl
  have e1 : insertDesc r1 [r3, r2] = [r3, r2, r1] := by
    show (if r3.published_at < r1.published_at then r1 :: [r3, r2] else r3 :: insertDesc r1 [r2]) = _
    rw [if_neg (by omega)]
    show r3 :: (if r2.published_at < r1.published_at then r1 :: [r2] else r2 :: insertDesc r1 []) = _
    rw [if_neg (by omega)]
    rfl
  have hsort : sortByPublishedDesc [r1, r2, r3] = [r3, r2, r1] := by
    show insertDesc r1 (insertDesc r2 (insertDesc r3 [])) = _
    rw [show insertDesc r3 [] = [r3] from rfl, e2, e1]
  constructor
  · rw [show renderChangelog [r1, r2, r3] repo none none =
        str "# " ++ repo ++ str " Changelog\n\n" ++ ([] : Str) ++
          renderSections (sortByPublishedDesc [r1, r2, r3]) from rfl,
      hsort, List.append_nil,
      show renderSections [r3, r2, r1] =
        sectionFor r3 ++ str "---\n\n" ++ (sectionFor r2 ++ str "---\n\n" ++ sectionFor r1)
        from rfl]
  · rcases m with _ | ⟨c, cs⟩
    · exact absurd rfl hm
    · rw [show renderChangelog rs repo (some (c :: cs)) none =
          str "# " ++ repo ++ str " Changelog\n\n" ++
            (str "Version range: " ++ (c :: cs) ++ str " to " ++ str "latest" ++ str "\n" ++
              str "Showing " ++
              natToStr (filterReleasesByVersion rs (some (c :: cs)) none).length ++
              str " of " ++ natToStr rs.length ++ str " releases\n\n") ++
            renderSections (sortByPublishedDesc (filterReleasesByVersion rs (some (c :: cs)) none))
          from rfl, hfil,
        show renderSections (sortByPublishedDesc []) = [] from rfl, List.append_nil]
      rfl

/-- C8 witness at concrete releases, repository name, and bounds. -/
theorem renderChangelog_spec_witness :
    ((1 : Int) < 2 ∧ (2 : Int) < 3 ∧ str "2" ≠ [] ∧
      filterReleasesByVersion [releaseOfTag "1.0.0"] (some (str "2")) none = []) ∧
    (renderChangelog [⟨str "v1", none, none, 1⟩, ⟨str "v2", none, none, 2⟩,
        ⟨str "v3", none, none, 3⟩] (str "typia") none none =
      str "# " ++ str "typia" ++ str " Changelog\n\n" ++
        (sectionFor ⟨str "v3", none, none, 3⟩ ++ str "---\n\n" ++
          (sectionFor ⟨str "v2", none, none, 2⟩ ++ str "---\n\n" ++
            sectionFor ⟨str "v1", none, none, 1⟩)) ∧
    renderChangelog [releaseOfTag "1.0.0"] (str "typia") (some (str "2")) none =
      str "# " ++ str "typia" ++ str " Changelog\n\n" ++
        (str "Version range: " ++ str "2" ++ str " to " ++ str "latest" ++ str "\n" ++
          str "Showing " ++ natToStr 0 ++ str " of " ++
          natToStr [releaseOfTag "1.0.0"].length ++ str " releases\n\n")) :=
  ⟨⟨by decide, by decide, by decide, by decide⟩,
    renderChangelog_spec ⟨str "v1", none, none, 1⟩ ⟨str "v2", none, none, 2⟩
      ⟨str "v3", none, none, 3⟩ (str "typia") (by decide) (by decide)
      [releaseOfTag "1.0.0"] (str "2") (by decide) (by decide)⟩

/-!
Lemmas about the body-cleaning loop.
-/

lemma skipAfter_false (l : Str) : skipAfter false l = false := by
  simp [skipAfter]

lemma cleanLines_cons_nc {l : Str} (b : Bool) (ls : List Str)
    (h : ncTrigger (trim l) = true) : cleanLines b (l :: ls) = cleanLines true ls := by
  simp [cleanLines, h]

lemma cleanLines_cons_fc {l : Str} (b : Bool) (ls : List Str)
    (h1 : ncTrigger (trim l) = false) (h2 : fcTrigger (trim l) = true) :
    cleanLines b (l :: ls) = cleanLines b ls := by
  simp [cleanLines, h1, h2]

lemma cleanLines_cons_skip {l : Str} {b : Bool} (ls : List Str)
    (h1 : ncTrigger (trim l) = false) (h2 : fcTrigger (trim l) = false)
    (h3 : skipAfter b l = true) : cleanLines b (l :: ls) = cleanLines true ls := by
  simp [cleanLines, h1, h2, h3]

lemma cleanLines_cons_emit {l : Str} {b : Bool} (ls : List Str)
    (h1 : ncTrigger (trim l) = false) (h2 : fcTrigger (trim l) = false)
    (h3 : skipAfter b l = false) : cleanLines b (l :: ls) = l :: cleanLines false ls := by
  simp [cleanLines, h1, h2, h3]

lemma cleanLines_append (ys : List Str) : ∀ (xs : List Str) (b : Bool),
    cleanLines b (xs ++ ys) = cleanLines b xs ++ cleanLines (stateAfter b xs) ys := by
  intro xs
  induction xs with
  | nil => intro b; rfl
  | cons l xs ih =>
    intro b
    cases hnc : ncTrigger (trim l) with
    | true => simp [cleanLines, stateAfter, hnc, ih]
    | false =>
      cases hfc : fcTrigger (trim l) with
      | true => simp [cleanLines, stateAfter, hnc, hfc, ih]
      | false =>
        cases hsk : skipAfter b l with
        | true => simp [cleanLines, stateAfter, hnc, hfc, hsk, ih]
        | false => simp [cleanLines, stateAfter, hnc, hfc, hsk, ih]

lemma jsStartsWith_of_append (q : Str) : ∀ (p t : Str),
    jsStartsWith t (p ++ q) = true → jsStartsWith t p = true := by
  intro p
  induction p with
  | nil => intro t _; cases t <;> rfl
  | cons c ps ih =>
    intro t h
    cases t with
    | nil => simp [jsStartsWith] at h
    | cons a ts =>
      simp only [List.cons_append, jsStartsWith, Bool.and_eq_true] at h ⊢
      exact ⟨h.1, ih ts h.2⟩

lemma jsStartsWith_three_two {t : Str} (h : jsStartsWith t (str "###") = true) :
    jsStartsWith t (str "##") = true := by
  have hsplit : str "###" = str "##" ++ str "#" := by decide
  rw [hsplit] at h
  exact jsStartsWith_of_append _ _ _ h

lemma jsStartsWith_comparable : ∀ (t p q : Str), jsStartsWith t p = true →
    jsStartsWith t q = true → (jsStartsWith p q || jsStartsWith q p) = true := by
  intro t
  induction t with
  | nil =>
    intro p q hp hq
    cases p with
    | nil => cases q <;> rfl
    | cons b ps => simp [jsStartsWith] at hp
  | cons a ts ih =>
    intro p q hp hq
    cases p with
    | nil => cases q <;> rfl
    | cons b ps =>
      cases q with
      | nil => rfl
      | cons c qs =>
        simp only [jsStartsWith, Bool.and_eq_true, beq_iff_eq] at hp hq
        obtain ⟨hab, hp'⟩ := hp
        obtain ⟨hac, hq'⟩ := hq
        subst hab
        subst hac
        simpa [jsStartsWith] using ih ps qs hp' hq'

lemma ncTrigger_false_of_fc {t : Str} (h : fcTrigger t = true) : ncTrigger t = false := by
  cases hnc : ncTrigger t with
  | false => rfl
  | true =>
    exfalso
    simp only [ncTrigger, Bool.or_eq_true] at hnc
    simp only [fcTrigger, Bool.or_eq_true] at h
    rcases hnc with (h1 | h1) | h1 <;> rcases h with h2 | h2 <;>
      · have := jsStartsWith_comparable t _ _ h1 h2
        revert this
        decide

lemma cleanLines_true_skip : ∀ (mid : List Str),
    (∀ l ∈ mid, jsStartsWith (trim l) (str "##") = false) →
      cleanLines true mid = [] ∧ stateAfter true mid = true := by
  intro mid
  induction mid with
  | nil => intro _; exact ⟨rfl, rfl⟩
  | cons x xs ih =>
    intro h
    have hx := h x (by simp)
    have hrest := ih fun l hl => h l (by simp [hl])
    have hx3 : jsStartsWith (trim x) (str "###") = false := by
      cases h3 : jsStartsWith (trim x) (str "###") with
      | false => rfl
      | true => rw [jsStartsWith_three_two h3] at hx; cases hx
    have hska : skipAfter true x = true := by
      simp [skipAfter, hx, hx3]
    cases hnc : ncTrigger (trim x) with
    | true => simpa [cleanLines, stateAfter, hnc] using hrest
    | false =>
      cases hfc : fcTrigger (trim x) with
      | true => simpa [cleanLines, stateAfter, hnc, hfc] using hrest
      | false => simpa [cleanLines, stateAfter, hnc, hfc, hska] using hrest

lemma cleanLines_false_filter : ∀ (post : List Str),
    (∀ l ∈ post, ncTrigger (trim l) = false) →
      cleanLines false post = post.filter fun l => !fcTrigger (trim l) := by
  intro post
  induction post with
  | nil => intro _; rfl
  | cons x xs ih =>
    intro h
    have hx := h x (by simp)
    have hrest := ih fun l hl => h l (by simp [hl])
    cases hfc : fcTrigger (trim x) with
    | true => simp [cleanLines, List.filter, hx, hfc, hrest]
    | false => simp [cleanLines, List.filter, hx, hfc, skipAfter_false, hrest]

/-!
Claim theorem: cleaning a body with a New Contributors section.
-/

/-- C4: when the split lines of a body consist of a prefix, a line opening
a New Contributors section, section lines that are not headings, a
`### Changes` heading, and a tail free of New Contributors markers, the
cleaner drops the marker line and the whole section, keeps the heading and
the tail (the tail minus its Full Changelog lines), and in general a line
whose trimmed form starts a Full Changelog link is dropped no matter what
the skip state is. -/
theorem cleanReleaseBody_section (body : Str) (pre mid post : List Str) (nc ch : Str)
    (hsplit : splitOnChar '\n' body = pre ++ nc :: (mid ++ ch :: post))
    (hnc : ncTrigger (trim nc) = true)
    (hmid : ∀ l ∈ mid, jsStartsWith (trim l) (str "##") = false)
    (hch : trim ch = str "### Changes")
    (hpost : ∀ l ∈ post, ncTrigger (trim l) = false) :
    cleanReleaseBody body =
      trim (joinChar '\n' (cleanLines false pre ++
        ch :: post.filter fun l => !fcTrigger (trim l))) ∧
    ∀ (b : Bool) (l : Str) (ls : List Str), fcTrigger (trim l) = true →
      cleanLines b (l :: ls) = cleanLines b ls := by
  constructor
  · have hbody : body.isEmpty = false := by
      cases hb : body.isEmpty with
      | false => rfl
      | true =>
        exfalso
        rw [List.isEmpty_iff] at hb
        subst hb
        have hlen := congrArg List.length hsplit
        simp [splitOnChar] at hlen
        omega
    have hchnc : ncTrigger (trim ch) = false := by rw [hch]; decide
    have hchfc : fcTrigger (trim ch) = false := by rw [hch]; decide
    have hchsk : skipAfter true ch = false := by
      rw [show skipAfter true ch =
        (if true && (jsStartsWith (trim ch) (str "##") || jsStartsWith (trim ch) (str "###")) &&
            !jsIncludes (trim ch) (str "New Contributors") then false else true) from rfl, hch]
      decide
    have hskip := cleanLines_true_skip mid hmid
    rw [show cleanReleaseBody body =
        (if body.isEmpty then [] else
          trim (joinChar '\n' (cleanLines false (splitOnChar '\n' body)))) from rfl,
      hbody]
    rw [if_neg (by simp), hsplit, cleanLines_append,
      cleanLines_cons_nc _ _ hnc, cleanLines_append, hskip.1, hskip.2,
      cleanLines_cons_emit _ hchnc hchfc hchsk, cleanLines_false_filter post hpost,
      List.nil_append]
  · intro b l ls hfc
    exact cleanLines_cons_fc b ls (ncTrigger_false_of_fc hfc) hfc

/-- C4 witness at a concrete release body. -/
theorem cleanReleaseBody_section_witness :
    (splitOnChar '\n' (str "intro\n## New Contributors\n* @a made x\n### Changes\n* fix\n**Full Changelog**: https://x")
        = [str "intro"] ++ str "## New Contributors" ::
            ([str "* @a made x"] ++ str "### Changes" ::
              [str "* fix", str "**Full Changelog**: https://x"]) ∧
      ncTrigger (trim (str "## New Contributors")) = true ∧
      (∀ l ∈ [str "* @a made x"], jsStartsWith (trim l) (str "##") = false) ∧
      trim (str "### Changes") = str "### Changes" ∧
      (∀ l ∈ [str "* fix", str "**Full Changelog**: https://x"], ncTrigger (trim l) = false)) ∧
    (cleanReleaseBody (str "intro\n## New Contributors\n* @a made x\n### Changes\n* fix\n**Full Changelog**: https://x") =
      trim (joinChar '\n' (cleanLines false [str "intro"] ++
        str "### Changes" ::
          [str "* fix", str "**Full Changelog**: https://x"].filter fun l => !fcTrigger (trim l))) ∧
    ∀ (b : Bool) (l : Str) (ls : List Str), fcTrigger (trim l) = true →
      cleanLines b (l :: ls) = cleanLines b ls) :=
  ⟨⟨by decide, by decide, by decide, by decide, by decide⟩,
    cleanReleaseBody_section
      (str "intro\n## New Contributors\n* @a made x\n### Changes\n* fix\n**Full Changelog**: https://x")
      [str "intro"] [str "* @a made x"] [str "* fix", str "**Full Changelog**: https://x"]
      (str "## New Contributors") (str "### Changes")
      (by decide) (by decide) (by decide) (by decide) (by decide)⟩

/-!
Lemmas about splitting and joining on a separator character.
-/

lemma splitOnChar_cons_sep (sep : Char) (cs : Str) :
    splitOnChar sep (sep :: cs) = [] :: splitOnChar sep cs := by
  simp [splitOnChar]

lemma splitOnChar_ne_nil (sep : Char) : ∀ s : Str, splitOnChar sep s ≠ [] := by
  intro s
  induction s with
  | nil => simp [splitOnChar]
  | cons c cs ih =>
    by_cases hc : c = sep
    · subst hc; rw [splitOnChar_cons_sep]; simp
    · rw [show splitOnChar sep (c :: cs) =
          (if c = sep then [] :: splitOnChar sep cs
           else
            match splitOnChar sep cs with
            | [] => [[c]]
            | t :: ts => (c :: t) :: ts) from rfl, if_neg hc]
      cases hsp : splitOnChar sep cs with
      | nil => simp
      | cons t ts => simp

lemma splitOnChar_cons_ne {sep c : Char} (cs : Str) (h : c ≠ sep) (t : Str) (ts : List Str)
    (hsp : splitOnChar sep cs = t :: ts) : splitOnChar sep (c :: cs) = (c :: t) :: ts := by
  rw [show splitOnChar sep (c :: cs) =
      (if c = sep then [] :: splitOnChar sep cs
       else
        match splitOnChar sep cs with
        | [] => [[c]]
        | t :: ts => (c :: t) :: ts) from rfl, if_neg h, hsp]

lemma joinChar_cons₂ (sep : Char) (l m : Str) (ls : List Str) :
    joinChar sep (l :: m :: ls) = l ++ sep :: joinChar sep (m :: ls) := rfl

lemma joinChar_splitOnChar (sep : Char) : ∀ s : Str, joinChar sep (splitOnChar sep s) = s := by
  intro s
  induction s with
  | nil => rfl
  | cons c cs ih =>
    cases hsp : splitOnChar sep cs with
    | nil => exact absurd hsp (splitOnChar_ne_nil sep cs)
    | cons t ts =>
      rw [hsp] at ih
      by_cases hc : c = sep
      · subst hc
        rw [splitOnChar_cons_sep, hsp, joinChar_cons₂, ih]
        rfl
      · rw [splitOnChar_cons_ne cs hc t ts hsp]
        cases ts with
        | nil =>
          have ht : t = cs := ih
          rw [show joinChar sep [c :: t] = c :: t from rfl, ht]
        | cons u us =>
          rw [joinChar_cons₂, ← ih, joinChar_cons₂]
          simp

lemma splitOnChar_no_sep (sep : Char) : ∀ (s l : Str), l ∈ splitOnChar sep s → sep ∉ l := by
  intro s
  induction s with
  | nil =>
    intro l hl
    rw [show splitOnChar sep [] = [[]] from rfl] at hl
    rcases List.mem_singleton.mp hl with rfl
    simp
  | cons c cs ih =>
    intro l hl
    by_cases hc : c = sep
    · subst hc
      rw [splitOnChar_cons_sep] at hl
      rcases List.mem_cons.mp hl with h | h
      · subst h; simp
      · exact ih l h
    · cases hsp : splitOnChar sep cs with
      | nil => exact absurd hsp (splitOnChar_ne_nil sep cs)
      | cons t ts =>
        rw [splitOnChar_cons_ne cs hc t ts hsp] at hl
        rcases List.mem_cons.mp hl with h | h
        · subst h
          intro hmem
          rcases List.mem_cons.mp hmem with h' | h'
          · exact hc h'.symm
          · exact ih t (by rw [hsp]; simp) h'
        · exact ih l (by rw [hsp]; simp [h])

lemma splitOnChar_of_no_sep (sep : Char) : ∀ l : Str, sep ∉ l → splitOnChar sep l = [l] := by
  intro l
  induction l with
  | nil => intro _; rfl
  | cons c cs ih =>
    intro h
    have hc : c ≠ sep := fun he => h (by simp [he])
    exact splitOnChar_cons_ne cs hc cs [] (ih fun hm => h (by simp [hm]))

lemma splitOnChar_append_sep (sep : Char) (r : Str) : ∀ l : Str, sep ∉ l →
    splitOnChar sep (l ++ sep :: r) = l :: splitOnChar sep r := by
  intro l
  induction l with
  | nil => intro _; exact splitOnChar_cons_sep sep r
  | cons c cs ih =>
    intro h
    have hc : c ≠ sep := fun he => h (by simp [he])
    rw [List.cons_append]
    exact splitOnChar_cons_ne _ hc cs (splitOnChar sep r) (ih fun hm => h (by simp [hm]))

lemma splitOnChar_joinChar (sep : Char) : ∀ ls : List Str, ls ≠ [] →
    (∀ l ∈ ls, sep ∉ l) → splitOnChar sep (joinChar sep ls) = ls := by
  intro ls
  induction ls with
  | nil => intro h; exact absurd rfl h
  | cons l ls ih =>
    intro _ hall
    cases ls with
    | nil => exact splitOnChar_of_no_sep sep l (hall l (by simp))
    | cons m ms =>
      rw [joinChar_cons₂, splitOnChar_append_sep sep _ l (hall l (by simp)),
        ih (by simp) fun x hx => hall x (by simp [hx])]

/-- Modification of the last split piece when a non-separator character is
appended to the split string. -/
def appendToLast (c : Char) : List Str → List Str
  | [] => [[c]]
  | [l] => [l ++ [c]]
  | l :: ls => l :: appendToLast c ls

lemma appendToLast_cons₂ (c : Char) (l m : Str) (ls : List Str) :
    appendToLast c (l :: m :: ls) = l :: appendToLast c (m :: ls) := rfl

lemma splitOnChar_snoc (sep c : Char) : ∀ xs : Str,
    splitOnChar sep (xs ++ [c]) =
      if c = sep then splitOnChar sep xs ++ [[]]
      else appendToLast c (splitOnChar sep xs) := by
  intro xs
  induction xs with
  | nil =>
    by_cases hc : c = sep
    · rw [if_pos hc, hc, show ([] : Str) ++ [sep] = [sep] from rfl, splitOnChar_cons_sep]
      rfl
    · rw [if_neg hc, show ([] : Str) ++ [c] = [c] from rfl,
        splitOnChar_cons_ne [] hc [] [] rfl]
      rfl
  | cons a xs ih =>
    cases hS : splitOnChar sep xs with
    | nil => exact absurd hS (splitOnChar_ne_nil sep xs)
    | cons t ts =>
      rw [hS] at ih
      by_cases ha : a = sep
      · rw [ha, List.cons_append, splitOnChar_cons_sep, splitOnChar_cons_sep, hS, ih]
        by_cases hc : c = sep
        · rw [if_pos hc, if_pos hc]
          rfl
        · rw [if_neg hc, if_neg hc, appendToLast_cons₂]
      · by_cases hc : c = sep
        · rw [if_pos hc] at ih
          rw [List.cons_append, splitOnChar_cons_ne (xs ++ [c]) ha t (ts ++ [[]]) (by rw [ih]; rfl),
            if_pos hc, splitOnChar_cons_ne xs ha t ts hS]
          rfl
        · rw [if_neg hc] at ih
          rw [if_neg hc, splitOnChar_cons_ne xs ha t ts hS]
          cases ts with
          | nil =>
            rw [List.cons_append, splitOnChar_cons_ne (xs ++ [c]) ha (t ++ [c]) []
              (by rw [ih]; rfl)]
            rfl
          | cons u us =>
            rw [List.cons_append, splitOnChar_cons_ne (xs ++ [c]) ha t (appendToLast c (u :: us))
              (by rw [ih, appendToLast_cons₂]), appendToLast_cons₂]

/-!
Lemmas about trimming.
-/

lemma trimRight_cons (c : Char) (cs : Str) :
    trimRight (c :: cs) =
      (match trimRight cs with
       | [] => if isWs c then [] else [c]
       | r :: rs => c :: r :: rs) := rfl

lemma trimLeft_cons (c : Char) (cs : Str) :
    trimLeft (c :: cs) = if isWs c then trimLeft cs else c :: cs := by
  simp [trimLeft, List.dropWhile_cons]

lemma trimRight_snoc_ws {c : Char} (hc : isWs c = true) : ∀ z : Str,
    trimRight (z ++ [c]) = trimRight z := by
  intro z
  induction z with
  | nil => simp [trimRight, hc]
  | cons a z ih =>
    rw [List.cons_append, trimRight_cons, ih, trimRight_cons]

lemma trimRight_snoc_not_ws {c : Char} (hc : isWs c = false) : ∀ z : Str,
    trimRight (z ++ [c]) = z ++ [c] := by
  intro z
  induction z with
  | nil => simp [trimRight, hc]
  | cons a z ih =>
    rw [List.cons_append, trimRight_cons, ih]
    cases z <;> rfl

lemma trimRight_idem : ∀ x : Str, trimRight (trimRight x) = trimRight x := by
  intro x
  induction x with
  | nil => rfl
  | cons c cs ih =>
    cases ht : trimRight cs with
    | nil =>
      rw [trimRight_cons, ht]
      by_cases hc : isWs c
      · simp [hc, trimRight]
      · simp [hc, trimRight]
    | cons r rs =>
      have hfix : trimRight (r :: rs) = r :: rs := by rw [← ht, ih]
      rw [trimRight_cons, ht, trimRight_cons, hfix]

lemma trimLeft_idem : ∀ x : Str, trimLeft (trimLeft x) = trimLeft x := by
  intro x
  induction x with
  | nil => rfl
  | cons c cs ih =>
    by_cases hc : isWs c
    · rw [trimLeft_cons, if_pos hc, ih]
    · rw [trimLeft_cons, if_neg hc, trimLeft_cons, if_neg hc]

lemma trimRight_trimLeft_fix : ∀ y : Str, trimRight y = y →
    trimRight (trimLeft y) = trimLeft y := by
  intro y
  induction y with
  | nil => intro _; rfl
  | cons c ys ih =>
    intro hy
    by_cases hc : isWs c
    · have hys : trimRight ys = ys := by
        cases ht : trimRight ys with
        | nil =>
          rw [trimRight_cons, ht, if_pos hc] at hy
          exact absurd hy (by simp)
        | cons r rs =>
          rw [trimRight_cons, ht] at hy
          have hy' : c :: r :: rs = c :: ys := hy
          injection hy'
      rw [trimLeft_cons, if_pos hc]
      exact ih hys
    · rw [trimLeft_cons, if_neg hc]
      exact hy

lemma trim_trim : ∀ x : Str, trim (trim x) = trim x := by
  intro x
  show trimLeft (trimRight (trimLeft (trimRight x))) = trimLeft (trimRight x)
  rw [trimRight_trimLeft_fix (trimRight x) (trimRight_idem x), trimLeft_idem]

lemma trim_cons_ws {c : Char} (hc : isWs c = true) (z : Str) : trim (c :: z) = trim z := by
  show trimLeft (trimRight (c :: z)) = trimLeft (trimRight z)
  cases ht : trimRight z with
  | nil => rw [trimRight_cons, ht, if_pos hc]
  | cons r rs =>
    rw [trimRight_cons, ht, trimLeft_cons, if_pos hc]

lemma trim_snoc_ws {c : Char} (hc : isWs c = true) (z : Str) : trim (z ++ [c]) = trim z := by
  show trimLeft (trimRight (z ++ [c])) = trimLeft (trimRight z)
  rw [trimRight_snoc_ws hc]

/-!
Transfer of split lines across trimming: every line of the trimmed string
has the same trimmed content as some line of the original string.
-/

lemma mem_appendToLast_of_mem {c : Char} (hc : isWs c = true) : ∀ (S : List Str) (m : Str),
    m ∈ S → ∃ m', m' ∈ appendToLast c S ∧ trim m = trim m' := by
  intro S
  induction S with
  | nil => intro m h; cases h
  | cons t ts ih =>
    intro m hm
    cases ts with
    | nil =>
      have hmt : m = t := List.mem_singleton.mp hm
      subst hmt
      exact ⟨m ++ [c], by simp [appendToLast], (trim_snoc_ws hc m).symm⟩
    | cons u us =>
      rcases List.mem_cons.mp hm with h | h
      · subst h
        exact ⟨m, by rw [appendToLast_cons₂]; simp, rfl⟩
      · obtain ⟨m', hm', htm⟩ := ih m h
        exact ⟨m', by rw [appendToLast_cons₂]; simp [hm'], htm⟩

lemma lines_trimLeft (sep : Char) : ∀ (x : Str) (l : Str),
    l ∈ splitOnChar sep (trimLeft x) → ∃ m ∈ splitOnChar sep x, trim l = trim m := by
  intro x
  induction x with
  | nil => intro l hl; exact ⟨l, hl, rfl⟩
  | cons c cs ih =>
    intro l hl
    by_cases hc : isWs c
    · rw [trimLeft_cons, if_pos hc] at hl
      obtain ⟨m, hm, hlm⟩ := ih l hl
      by_cases hcs : c = sep
      · refine ⟨m, ?_, hlm⟩
        rw [hcs, splitOnChar_cons_sep]
        simp [hm]
      · cases hsp : splitOnChar sep cs with
        | nil => exact absurd hsp (splitOnChar_ne_nil sep cs)
        | cons t ts =>
          rw [hsp] at hm
          rcases List.mem_cons.mp hm with h | h
          · subst h
            refine ⟨c :: m, ?_, ?_⟩
            · rw [splitOnChar_cons_ne cs hcs m ts hsp]
              simp
            · rw [hlm, trim_cons_ws hc]
          · exact ⟨m, by rw [splitOnChar_cons_ne cs hcs t ts hsp]; simp [h], hlm⟩
    · rw [trimLeft_cons, if_neg hc] at hl
      exact ⟨l, hl, rfl⟩

lemma lines_trimRight (sep : Char) : ∀ (x : Str) (l : Str),
    l ∈ splitOnChar sep (trimRight x) → ∃ m ∈ splitOnChar sep x, trim l = trim m := by
  intro x
  induction x using List.reverseRecOn with
  | nil => intro l hl; exact ⟨l, hl, rfl⟩
  | append_singleton xs c ih =>
    intro l hl
    by_cases hc : isWs c
    · rw [trimRight_snoc_ws hc] at hl
      obtain ⟨m, hm, hlm⟩ := ih l hl
      by_cases hcs : c = sep
      · refine ⟨m, ?_, hlm⟩
        rw [splitOnChar_snoc, if_pos hcs]
        simp [hm]
      · obtain ⟨m', hm', htm⟩ := mem_appendToLast_of_mem hc (splitOnChar sep xs) m hm
        refine ⟨m', ?_, hlm.trans htm⟩
        rw [splitOnChar_snoc, if_neg hcs]
        exact hm'
    · rw [trimRight_snoc_not_ws (by simpa using hc)] at hl
      exact ⟨l, hl, rfl⟩

lemma lines_trim (sep : Char) (x : Str) (l : Str) (hl : l ∈ splitOnChar sep (trim x)) :
    ∃ m ∈ splitOnChar sep x, trim l = trim m := by
  obtain ⟨m1, hm1, h1⟩ := lines_trimLeft sep (trimRight x) l hl
  obtain ⟨m2, hm2, h2⟩ := lines_trimRight sep x m1 hm1
  exact ⟨m2, hm2, h1.trans h2⟩

/-!
Emitted lines of the cleaning loop: they come from the input and never
match a drop trigger.
-/

lemma cleanLines_mem_input : ∀ (ls : List Str) (b : Bool) (l : Str),
    l ∈ cleanLines b ls → l ∈ ls := by
  intro ls
  induction ls with
  | nil => intro b l h; cases h
  | cons x xs ih =>
    intro b l h
    cases hnc : ncTrigger (trim x) with
    | true =>
      rw [cleanLines_cons_nc _ _ hnc] at h
      exact List.mem_cons_of_mem _ (ih _ _ h)
    | false =>
      cases hfc : fcTrigger (trim x) with
      | true =>
        rw [cleanLines_cons_fc _ _ hnc hfc] at h
        exact List.mem_cons_of_mem _ (ih _ _ h)
      | false =>
        cases hsk : skipAfter b x with
        | true =>
          rw [cleanLines_cons_skip _ hnc hfc hsk] at h
          exact List.mem_cons_of_mem _ (ih _ _ h)
        | false =>
          rw [cleanLines_cons_emit _ hnc hfc hsk] at h
          rcases List.mem_cons.mp h with h' | h'
          · subst h'; simp
          · exact List.mem_cons_of_mem _ (ih _ _ h')

lemma cleanLines_mem_no_trigger : ∀ (ls : List Str) (b : Bool) (l : Str),
    l ∈ cleanLines b ls → ncTrigger (trim l) = false ∧ fcTrigger (trim l) = false := by
  intro ls
  induction ls with
  | nil => intro b l h; cases h
  | cons x xs ih =>
    intro b l h
    cases hnc : ncTrigger (trim x) with
    | true =>
      rw [cleanLines_cons_nc _ _ hnc] at h
      exact ih _ _ h
    | false =>
      cases hfc : fcTrigger (trim x) with
      | true =>
        rw [cleanLines_cons_fc _ _ hnc hfc] at h
        exact ih _ _ h
      | false =>
        cases hsk : skipAfter b x with
        | true =>
          rw [cleanLines_cons_skip _ hnc hfc hsk] at h
          exact ih _ _ h
        | false =>
          rw [cleanLines_cons_emit _ hnc hfc hsk] at h
          rcases List.mem_cons.mp h with h' | h'
          · subst h'; exact ⟨hnc, hfc⟩
          · exact ih _ _ h'

lemma cleanLines_id : ∀ ls : List Str,
    (∀ l ∈ ls, ncTrigger (trim l) = false ∧ fcTrigger (trim l) = false) →
      cleanLines false ls = ls := by
  intro ls
  induction ls with
  | nil => intro _; rfl
  | cons x xs ih =>
    intro h
    have hx := h x (by simp)
    rw [cleanLines_cons_emit _ hx.1 hx.2 (skipAfter_false x),
      ih fun l hl => h l (by simp [hl])]

/-!
Claim theorem: idempotence of body cleaning.
-/

/-- C5: body cleaning is idempotent; cleaning the result of a clean yields
the same string.  Once cleaned, no remaining line can start a New
Contributors section or a Full Changelog link (those lines are never
emitted), trimming the joined text only changes whitespace at the line
margins, and trimming is itself idempotent. -/
theorem cleanReleaseBody_idem (body : Str) :
    cleanReleaseBody (cleanReleaseBody body) = cleanReleaseBody body := by
  by_cases hb : body.isEmpty
  · have h1 : cleanReleaseBody body = [] := by
      rw [show cleanReleaseBody body =
        (if body.isEmpty then [] else
          trim (joinChar '\n' (cleanLines false (splitOnChar '\n' body)))) from rfl, if_pos hb]
    rw [h1]
    rfl
  · have h1 : cleanReleaseBody body =
        trim (joinChar '\n' (cleanLines false (splitOnChar '\n' body))) := by
      rw [show cleanReleaseBody body =
        (if body.isEmpty then [] else
          trim (joinChar '\n' (cleanLines false (splitOnChar '\n' body)))) from rfl, if_neg hb]
    rw [h1]
    by_cases hte : (trim (joinChar '\n' (cleanLines false (splitOnChar '\n' body)))).isEmpty
    · rw [List.isEmpty_iff] at hte
      rw [hte]
      rfl
    · have hout_ne : cleanLines false (splitOnChar '\n' body) ≠ [] := by
        intro h0
        rw [h0] at hte
        exact hte rfl
      have hnosep : ∀ l ∈ cleanLines false (splitOnChar '\n' body), '\n' ∉ l :=
        fun l hl => splitOnChar_no_sep '\n' body l (cleanLines_mem_input _ _ _ hl)
      have hsj : splitOnChar '\n' (joinChar '\n' (cleanLines false (splitOnChar '\n' body))) =
          cleanLines false (splitOnChar '\n' body) :=
        splitOnChar_joinChar '\n' _ hout_ne hnosep
      have hclean : ∀ l ∈ splitOnChar '\n'
          (trim (joinChar '\n' (cleanLines false (splitOnChar '\n' body)))),
          ncTrigger (trim l) = false ∧ fcTrigger (trim l) = false := by
        intro l hl
        obtain ⟨m, hm, htm⟩ := lines_trim '\n' _ l hl
        rw [hsj] at hm
        have hmt := cleanLines_mem_no_trigger _ _ _ hm
        rw [show ncTrigger (trim l) = ncTrigger (trim m) from by rw [htm],
          show fcTrigger (trim l) = fcTrigger (trim m) from by rw [htm]]
        exact hmt
      rw [show cleanReleaseBody (trim (joinChar '\n' (cleanLines false (splitOnChar '\n' body)))) =
          (if (trim (joinChar '\n' (cleanLines false (splitOnChar '\n' body)))).isEmpty then []
           else trim (joinChar '\n' (cleanLines false (splitOnChar '\n'
             (trim (joinChar '\n' (cleanLines false (splitOnChar '\n' body)))))))) from rfl,
        if_neg hte, cleanLines_id _ hclean, joinChar_splitOnChar, trim_trim]

/-!
Lemmas for the object-size traversal: the pushable property mass shrinks
when an object is first visited, and never grows otherwise.
-/

lemma sum_filter_split (f : Nat → Nat) (p : Nat → Bool) (a : Nat) :
    ∀ l : List Nat, l.Nodup → a ∈ l → p a = true →
      ((l.filter p).map f).sum =
        f a + ((l.filter fun i => !(a == i) && p i).map f).sum := by
  intro l
  induction l with
  | nil => intro _ ha _; cases ha
  | cons b l ih =>
    intro hnd hal hpa
    have hbl : b ∉ l := (List.nodup_cons.mp hnd).1
    have hnd' : l.Nodup := (List.nodup_cons.mp hnd).2
    rcases List.mem_cons.mp hal with h | h
    · subst h
      rw [List.filter_cons, if_pos hpa, List.filter_cons,
        if_neg (by simp)]
      have hrest : (l.filter fun i => !(a == i) && p i) = l.filter p := by
        apply List.filter_congr
        intro x hx
        have hxa : a ≠ x := fun he => hbl (he ▸ hx)
        simp [hxa, Bool.and_comm]
      rw [hrest, List.map_cons, List.sum_cons]
    · have hab : a ≠ b := fun he => hbl (he ▸ h)
      rw [List.filter_cons, List.filter_cons,
        show (!(a == b) && p b) = p b by simp [hab]]
      cases hpb : p b with
      | true =>
        rw [if_pos rfl, if_pos rfl, List.map_cons, List.sum_cons, List.map_cons, List.sum_cons,
          ih hnd' h hpa]
        omega
      | false =>
        rw [if_neg (by simp), if_neg (by simp)]
        exact ih hnd' h hpa

lemma memVis_objv_cons (i id : Nat) (L : List JSVal) :
    memVis (JSVal.objv i) (JSVal.objv id :: L) =
      ((id == i) || memVis (JSVal.objv i) L) := by
  simp [memVis, jsEq, List.any_cons]

lemma remaining_visit {heap : Heap} {id : Nat} {L : List JSVal} (hid : id < heap.length)
    (hv : memVis (JSVal.objv id) L = false) :
    remainingProps heap L =
      (heap.getD id []).length + remainingProps heap (JSVal.objv id :: L) := by
  unfold remainingProps
  have hsplit := sum_filter_split (fun i => (heap.getD i []).length)
    (fun i => !memVis (JSVal.objv i) L) id (List.range heap.length)
    (List.nodup_range heap.length) (List.mem_range.mpr hid) (by simp [hv])
  rw [hsplit]
  have hpred : ((List.range heap.length).filter
      fun i => !(id == i) && !memVis (JSVal.objv i) L) =
      (List.range heap.length).filter
        fun i => !memVis (JSVal.objv i) (JSVal.objv id :: L) := by
    apply List.filter_congr
    intro x _
    rw [memVis_objv_cons]
    simp [Bool.not_or]
  rw [hpred]

lemma remaining_out (heap : Heap) (id : Nat) (L : List JSVal) (hid : heap.length ≤ id) :
    remainingProps heap (JSVal.objv id :: L) = remainingProps heap L := by
  unfold remainingProps
  have hpred : ((List.range heap.length).filter
      fun i => !memVis (JSVal.objv i) (JSVal.objv id :: L)) =
      (List.range heap.length).filter fun i => !memVis (JSVal.objv i) L := by
    apply List.filter_congr
    intro x hx
    have hxid : id ≠ x := by
      have := List.mem_range.mp hx
      omega
    rw [memVis_objv_cons]
    simp [hxid]
  rw [hpred]

lemma remaining_null (heap : Heap) (L : List JSVal) :
    remainingProps heap (JSVal.nullv :: L) = remainingProps heap L := by
  unfold remainingProps
  have hpred : ((List.range heap.length).filter
      fun i => !memVis (JSVal.objv i) (JSVal.nullv :: L)) =
      (List.range heap.length).filter fun i => !memVis (JSVal.objv i) L := by
    apply List.filter_congr
    intro x _
    simp [memVis, jsEq, List.any_cons]
  rw [hpred]

lemma remaining_nil_visited (heap : Heap) : remainingProps heap [] = totalProps heap := by
  unfold remainingProps
  rw [show ((List.range heap.length).filter fun i => !memVis (JSVal.objv i) []) =
      (List.range heap.length).filter fun _ => true from List.filter_congr fun x _ => rfl,
    List.filter_true]
  induction heap with
  | nil => rfl
  | cons ps hs ih =>
    rw [show (ps :: hs).length = hs.length + 1 from rfl, List.range_succ_eq_map,
      List.map_cons, List.map_map, List.sum_cons]
    rw [show ((List.range hs.length).map
        ((fun i => ((ps :: hs).getD i []).length) ∘ Nat.succ)) =
        (List.range hs.length).map fun i => (hs.getD i []).length from by
      apply List.map_congr_left
      intro x _
      rfl]
    rw [ih]
    rfl

lemma sizeLoop_nil (heap : Heap) (fuel : Nat) (L : List JSVal) (b : Int) :
    sizeLoop heap fuel [] L b = some b := by
  cases fuel <;> rfl

lemma sizeLoop_objv (heap : Heap) (f : Nat) (id : Nat) (t L : List JSVal) (b : Int) :
    sizeLoop heap (f + 1) (JSVal.objv id :: t) L b =
      (if memVis (JSVal.objv id) L then sizeLoop heap f t L b
       else sizeLoop heap f ((heap.getD id []).reverse ++ t) (JSVal.objv id :: L) b) := rfl

lemma sizeLoop_nullv (heap : Heap) (f : Nat) (t L : List JSVal) (b : Int) :
    sizeLoop heap (f + 1) (JSVal.nullv :: t) L b =
      (if memVis JSVal.nullv L then sizeLoop heap f t L b
       else sizeLoop heap f t (JSVal.nullv :: L) b) := rfl

lemma sizeLoop_some (heap : Heap) : ∀ (fuel : Nat) (stack objectList : List JSVal) (bytes : Int),
    stack.length + remainingProps heap objectList ≤ fuel →
      ∃ n, sizeLoop heap fuel stack objectList bytes = some n := by
  intro fuel
  induction fuel with
  | zero =>
    intro stack L b h
    cases stack with
    | nil => exact ⟨b, sizeLoop_nil heap 0 L b⟩
    | cons v t => simp at h
  | succ f ih =>
    intro stack L b h
    cases stack with
    | nil => exact ⟨b, sizeLoop_nil heap (f + 1) L b⟩
    | cons v t =>
      rw [List.length_cons] at h
      cases v with
      | boolv bv => exact ih t L (b + 4) (by omega)
      | strv s => exact ih t L (b + 2 * (s.length : Int)) (by omega)
      | numv m => exact ih t L (b + 8) (by omega)
      | undefv => exact ih t L b (by omega)
      | objv id =>
        rw [sizeLoop_objv]
        cases hv : memVis (JSVal.objv id) L with
        | true =>
          rw [if_pos rfl]
          exact ih t L b (by omega)
        | false =>
          rw [if_neg (by simp)]
          by_cases hid : id < heap.length
          · have hrem := remaining_visit hid hv
            apply ih
            rw [List.length_append, List.length_reverse]
            omega
          · have hgd : heap.getD id [] = [] := List.getD_eq_default _ _ (by omega)
            have hrem := remaining_out heap id L (by omega)
            apply ih
            rw [hgd, List.reverse_nil, List.nil_append]
            omega
      | nullv =>
        rw [sizeLoop_nullv]
        cases hv : memVis JSVal.nullv L with
        | true =>
          rw [if_pos rfl]
          exact ih t L b (by omega)
        | false =>
          rw [if_neg (by simp)]
          have hrem := remaining_null heap L
          exact ih t (JSVal.nullv :: L) b (by omega)

lemma sizeLoop_le (heap : Heap) : ∀ (fuel : Nat) (stack L : List JSVal) (bytes n : Int),
    sizeLoop heap fuel stack L bytes = some n → bytes ≤ n := by
  intro fuel
  induction fuel with
  | zero =>
    intro stack L b n h
    cases stack with
    | nil =>
      rw [sizeLoop_nil] at h
      injection h with h'
      omega
    | cons v t => exact absurd h (by rw [show sizeLoop heap 0 (v :: t) L b = none from rfl]; simp)
  | succ f ih =>
    intro stack L b n h
    cases stack with
    | nil =>
      rw [sizeLoop_nil] at h
      injection h with h'
      omega
    | cons v t =>
      cases v with
      | boolv bv =>
        have := ih t L (b + 4) n h
        omega
      | strv s =>
        have := ih t L (b + 2 * (s.length : Int)) n h
        have hs : (0 : Int) ≤ (s.length : Int) := Int.ofNat_nonneg _
        omega
      | numv m =>
        have := ih t L (b + 8) n h
        omega
      | undefv => exact ih t L b n h
      | objv id =>
        rw [sizeLoop_objv] at h
        cases hv : memVis (JSVal.objv id) L with
        | true =>
          rw [if_pos hv] at h
          exact ih _ _ _ _ h
        | false =>
          rw [if_neg (by simp [hv])] at h
          exact ih _ _ _ _ h
      | nullv =>
        rw [sizeLoop_nullv] at h
        cases hv : memVis JSVal.nullv L with
        | true =>
          rw [if_pos hv] at h
          exact ih _ _ _ _ h
        | false =>
          rw [if_neg (by simp [hv])] at h
          exact ih _ _ _ _ h

lemma formatSize_unit (b : Int) :
    ∃ pre unit, formatSize b = pre ++ unit ∧
      (unit = str " bytes" ∨ unit = str " KiB" ∨ unit = str " MiB" ∨ unit = str " GiB") := by
  unfold formatSize
  by_cases h1 : b < 1024
  · rw [if_pos h1]
    exact ⟨_, _, rfl, Or.inl rfl⟩
  · rw [if_neg h1]
    by_cases h2 : b < 1048576
    · rw [if_pos h2]
      exact ⟨_, _, rfl, Or.inr (Or.inl rfl)⟩
    · rw [if_neg h2]
      by_cases h3 : b < 1073741824
      · rw [if_pos h3]
        exact ⟨_, _, rfl, Or.inr (Or.inr (Or.inl rfl))⟩
      · rw [if_neg h3]
        exact ⟨_, _, rfl, Or.inr (Or.inr (Or.inr rfl))⟩

/-!
Claim theorem: termination and output shape of getSizeOfObject.
-/

/-- C10: the traversal of `getSizeOfObject` terminates on every value over
every heap, cyclic object graphs included, because a visited object is
recorded in `objectList` and its properties are pushed at most once (the
fuel `fuelFor`, one step per stack pop, provably suffices); the
accumulated byte count is non-negative; and the result always carries one
of the units bytes, KiB, MiB, GiB.  The last conjunct runs the traversal
on a self-referential object. -/
theorem getSizeOfObject_spec (heap : Heap) (v : JSVal) :
    (∃ n, sizeLoop heap (fuelFor heap [v]) [v] [] 0 = some n ∧ 0 ≤ n) ∧
    (∃ pre unit, getSizeOfObject heap v = pre ++ unit ∧
      (unit = str " bytes" ∨ unit = str " KiB" ∨ unit = str " MiB" ∨ unit = str " GiB")) ∧
    getSizeOfObject [[JSVal.objv 0, JSVal.numv 5]] (JSVal.objv 0) = str "8 bytes" := by
  have hcond : ([v] : List JSVal).length + remainingProps heap [] ≤ fuelFor heap [v] := by
    rw [remaining_nil_visited]
    rfl
  obtain ⟨n, hn⟩ := sizeLoop_some heap (fuelFor heap [v]) [v] [] 0 hcond
  refine ⟨⟨n, hn, sizeLoop_le heap (fuelFor heap [v]) [v] [] 0 n hn⟩, ?_, by decide⟩
  rw [show getSizeOfObject heap v =
      (match sizeLoop heap (fuelFor heap [v]) [v] [] 0 with
       | some bytes => formatSize bytes
       | none => formatSize 0) from rfl, hn]
  exact formatSize_unit n
